import Mathlib

/-!
Verification of the structured code-chunking engine of the repository
(`backend/code_ingest_utils.py`).

The embedding is shallow and executable:

* a source line is a `List Char` (Python strings are sequences of characters;
  line terminators are kept inside the line, exactly as `readlines` returns them);
* `find_code_block_boundaries` is translated function-for-function: the Python
  regular expressions `^(def |class )` and `^(export\s+)?(function |class |const |let |var )`
  become explicit prefix predicates on the left-stripped line, the decorator
  walk-back loop becomes `decoAdjust`, the fallback
  `for i in range(0, n, 200)` loop becomes a map over `List.range`;
* `create_documents_from_file` reads the file and derives `language`/`filename`
  from the path; the pure chunk-production stage after the read is embedded as
  `create_documents_from_lines`, taking `path`, `filename`, `language`, the
  lines and `chunk_max_lines` as inputs.  Its `while cur < end` loop becomes the
  fuel-indexed `chunksGo`, with fuel `end - start` (the exact number of
  iterations whenever `chunk_max_lines ≥ 1`); exhausted fuel yields `none`,
  modelling the non-termination of the source loop when `chunk_max_lines = 0`.

Whitespace is modelled by the six ASCII whitespace characters recognised by
Python's `str.strip`/`str.isspace` (`' '`, `'\t'`, `'\n'`, `'\r'`, `'\x0b'`,
`'\x0c'`).
-/

/-- The whitespace characters stripped by Python's `str.strip` (ASCII range). -/
def pyIsSpace (c : Char) : Bool :=
  c = ' ' || c = '\t' || c = '\n' || c = '\r' || c = '\x0b' || c = '\x0c'

/-- A raw source line: the characters of the Python string, newline included. -/
abbrev Line := List Char

/-- Python `s.lstrip()`. -/
def lstripData (s : List Char) : List Char := s.dropWhile pyIsSpace

/-- Python `s.rstrip()`. -/
def rstripData (s : List Char) : List Char := (s.reverse.dropWhile pyIsSpace).reverse

/-- Python `s.strip()`. -/
def stripData (s : List Char) : List Char := rstripData (lstripData s)

/-- Python `s.startswith(p)` on character lists. -/
def startsWith : List Char → List Char → Bool
  | [], _ => true
  | _ :: _, [] => false
  | a :: p, b :: s => a = b && startsWith p s

/-- The Python-language test `re.compile(r"^(def |class )").match(line.lstrip())`. -/
def pyBoundaryStart (line : Line) : Bool :=
  startsWith "def ".toList (lstripData line) || startsWith "class ".toList (lstripData line)

/-- One of the five JS/TS keywords followed by a space, at the head of `s`. -/
def jsKeywordStart (s : List Char) : Bool :=
  startsWith "function ".toList s || startsWith "class ".toList s ||
    startsWith "const ".toList s || startsWith "let ".toList s || startsWith "var ".toList s

/-- The JS/TS test `re.compile(r"^(export\s+)?(function |class |const |let |var )").match(line.lstrip())`:
an optional `export` followed by at least one whitespace character, then a keyword. -/
def jsBoundaryStart (line : Line) : Bool :=
  jsKeywordStart (lstripData line) ||
    (startsWith "export".toList (lstripData line) &&
      (match (lstripData line).drop 6 with
        | [] => false
        | c :: _ => pyIsSpace c) &&
      jsKeywordStart (lstripData ((lstripData line).drop 6)))

/-- The decorator test `lines[j].lstrip().startswith("@")`. -/
def isDecoratorLine (line : Line) : Bool := startsWith "@".toList (lstripData line)

/-- `lines[i]` (always used with `i < len(lines)`). -/
def lineAt (lines : List Line) (i : Nat) : Line := lines.getD i []

/-- The `indices` list of `find_code_block_boundaries`: all `i` with
`pattern.match(lines[i].lstrip())`. -/
def boundaryIndices (lines : List Line) (pat : Line → Bool) : List Nat :=
  (List.range lines.length).filter (fun i => pat (lineAt lines i))

/-- The detected-start indices for a Python file. -/
def pyIndices (lines : List Line) : List Nat := boundaryIndices lines pyBoundaryStart

/-- The decorator walk-back: `j = start - 1; while j >= 0 and
lines[j].lstrip().startswith("@"): j -= 1; start = j + 1`. -/
def decoAdjust (lines : List Line) : Nat → Nat
  | 0 => 0
  | s + 1 => if isDecoratorLine (lineAt lines s) then decoAdjust lines s else s + 1

/-- The per-start adjustment: the decorator walk-back for Python, the identity
for the JS/TS family (`if language == "python"` in the source loop). -/
def adjustStart (lines : List Line) (isPython : Bool) (s : Nat) : Nat :=
  if isPython then decoAdjust lines s else s

/-- The range-building loop of `find_code_block_boundaries`: boundary `i` runs
from its adjusted start to `indices[i + 1]`, or to `len(lines)` for the last. -/
def buildRanges (lines : List Line) (isPython : Bool) (n : Nat) : List Nat → List (Nat × Nat)
  | [] => []
  | i :: rest =>
    (adjustStart lines isPython i, match rest with | [] => n | j :: _ => j) :: buildRanges lines isPython n rest

/-- The heuristic branch of `find_code_block_boundaries`: collect matching line
indices, return a single whole-file block when there are none, otherwise build
the ranges and prepend a leading `[0, first_start)` block when the first range
does not start at line 0. -/
def heuristicBoundaries (lines : List Line) (pat : Line → Bool) (isPython : Bool) : List (Nat × Nat) :=
  if (boundaryIndices lines pat).isEmpty then [(0, lines.length)]
  else
    match buildRanges lines isPython lines.length (boundaryIndices lines pat) with
    | [] => []
    | (s, e) :: rest => if 0 < s then (0, s) :: (s, e) :: rest else (s, e) :: rest

/-- The fallback block size (`size = 200`). -/
def fallbackSize : Nat := 200

/-- The fallback branch: `for i in range(0, n, size): boundaries.append((i, min(i + size, n)))`
(the loop runs `⌈n / size⌉` times, with `i = size * k` on iteration `k`). -/
def fallbackBoundaries (n : Nat) : List (Nat × Nat) :=
  (List.range ((n + (fallbackSize - 1)) / fallbackSize)).map
    (fun k => (fallbackSize * k, min (fallbackSize * k + fallbackSize) n))

/-- `find_code_block_boundaries(lines, language)`. -/
def find_code_block_boundaries (lines : List Line) (language : String) : List (Nat × Nat) :=
  if language = "python" then
    heuristicBoundaries lines pyBoundaryStart true
  else if language = "javascript" || language = "typescript" then
    heuristicBoundaries lines jsBoundaryStart false
  else
    fallbackBoundaries lines.length

/-- One output document: `page_content` plus the metadata dict attached by
`create_documents_from_file`. -/
structure Chunk where
  path : String
  filename : String
  language : String
  chunk_type : String
  line_start : Nat
  line_end : Nat
  content : List Char
deriving DecidableEq, Inhabited

/-- `"code" if language not in ("markdown", "text", "json", "toml", "yaml") else "prose"`. -/
def chunkTypeOf (language : String) : String :=
  if language = "markdown" || language = "text" || language = "json" ||
      language = "toml" || language = "yaml" then "prose"
  else "code"

/-- `"".join(lines[a:b])`. -/
def sliceJoin (lines : List Line) (a b : Nat) : List Char :=
  ((lines.drop a).take (b - a)).flatten

/-- The document built for the window `[a, b)`: content is the joined window
text right-stripped, `line_start` is 1-based, `line_end` is the last included
1-based line number. -/
def chunkOfWindow (path filename language : String) (lines : List Line) (a b : Nat) : Chunk :=
  { path := path
    filename := filename
    language := language
    chunk_type := chunkTypeOf language
    line_start := a + 1
    line_end := b
    content := rstripData (sliceJoin lines a b) }

/-- The `while cur < end` loop of `create_documents_from_file`, fuel-indexed.
Each iteration takes the window `[cur, min(cur + maxLines, end))`, drops it when
its stripped content is empty, and advances `cur` to the window end.  `none`
models fuel exhaustion (the source loop does not terminate when `maxLines = 0`
meets a non-empty range). -/
def chunksGo (path filename language : String) (lines : List Line) (maxLines e : Nat) :
    Nat → Nat → Option (List Chunk)
  | 0, cur => if cur < e then none else some []
  | fuel + 1, cur =>
    if cur < e then
      let ce := min (cur + maxLines) e
      let c := chunkOfWindow path filename language lines cur ce
      if (stripData c.content).isEmpty then
        chunksGo path filename language lines maxLines e fuel ce
      else
        (chunksGo path filename language lines maxLines e fuel ce).map (fun rest => c :: rest)
    else some []

/-- The `for start, end in boundaries` loop: each range is split by the while
loop above (with fuel `end - start`, the exact iteration count when
`chunk_max_lines ≥ 1`) and the resulting documents are concatenated. -/
def chunksOfBoundaries (path filename language : String) (lines : List Line) (maxLines : Nat) :
    List (Nat × Nat) → Option (List Chunk)
  | [] => some []
  | (s, e) :: rest =>
    match chunksGo path filename language lines maxLines e (e - s) s with
    | none => none
    | some out => (chunksOfBoundaries path filename language lines maxLines rest).map (fun more => out ++ more)

/-- The pure chunk-production stage of `create_documents_from_file`: everything
after the file read, with `language` (computed from the path by
`detect_language_from_path`) and `filename` (`Path(path).name`) as inputs. -/
def create_documents_from_lines (path filename language : String) (lines : List Line)
    (chunk_max_lines : Nat) : Option (List Chunk) :=
  chunksOfBoundaries path filename language lines chunk_max_lines
    (find_code_block_boundaries lines language)

/-- A Python file where a decorated definition follows an earlier one:
`def f():`, `    pass`, `@deco`, `def g():`, `    pass`. -/
def overlapLines : List Line :=
  ["def f():\n".toList, "    pass\n".toList, "@deco\n".toList, "def g():\n".toList, "    pass\n".toList]

/-- The decorator-attachment example of the spec: `@deco`, `def f():`, `    pass`. -/
def decoLines : List Line :=
  ["@deco\n".toList, "def f():\n".toList, "    pass\n".toList]

/-- A one-line ini-style config file. -/
def iniLines : List Line := ["x = 1\n".toList]

/-- A Python file consisting of a single blank line. -/
def blankLines : List Line := [[' ', '\n']]

/-- A ten-line Python file whose boundary detection produces the window `[2, 5)`:
definitions start at lines 2 and 5 (0-based). -/
def tenLines : List Line :=
  ["x = 1\n".toList, "y = 2\n".toList, "def a():\n".toList, "    p = 1\n".toList,
    "    q = 2\n".toList, "def b():\n".toList, "    r = 3\n".toList, "    s = 4\n".toList,
    "    t = 5\n".toList, "    u = 6\n".toList]

/-- A two-line Python file with no `def`/`class` line. -/
def noDefLines : List Line := ["x = 1\n".toList, "y = 2\n".toList]

/-- The documents produced for `tenLines` (used to pick concrete chunks). -/
def tenDocs : List Chunk :=
  (create_documents_from_lines "f.py" "f.py" "python" tenLines 400).getD []

/-- The documents produced for `iniLines` (used to pick concrete chunks). -/
def iniDocs : List Chunk :=
  (create_documents_from_lines "a.cfg" "a.cfg" "ini" iniLines 400).getD []

lemma startsWith_head {a : Char} {p s : List Char} (h : startsWith (a :: p) s = true) :
    ∃ t, s = a :: t := by
  cases s with
  | nil => simp [startsWith] at h
  | cons b t =>
    simp only [startsWith, Bool.and_eq_true, decide_eq_true_eq] at h
    exact ⟨t, by rw [h.1]⟩

lemma pyBoundaryStart_not_deco {line : Line} (h : pyBoundaryStart line = true) :
    isDecoratorLine line = false := by
  simp only [pyBoundaryStart, Bool.or_eq_true] at h
  rcases h with h | h <;>
  · obtain ⟨t, ht⟩ := startsWith_head h
    simp [isDecoratorLine, ht, startsWith]

lemma jsKeywordStart_not_at {s : List Char} (h : jsKeywordStart s = true) :
    startsWith "@".toList s = false := by
  simp only [jsKeywordStart, Bool.or_eq_true] at h
  rcases h with ((((h | h) | h) | h) | h) <;>
  · obtain ⟨t, ht⟩ := startsWith_head h
    simp [ht, startsWith]

lemma jsBoundaryStart_not_deco {line : Line} (h : jsBoundaryStart line = true) :
    isDecoratorLine line = false := by
  simp only [jsBoundaryStart, Bool.or_eq_true, Bool.and_eq_true] at h
  rcases h with h | ⟨⟨h, _⟩, _⟩
  · exact jsKeywordStart_not_at h
  · obtain ⟨t, ht⟩ := startsWith_head h
    simp [isDecoratorLine, ht, startsWith]

lemma decoAdjust_le (lines : List Line) : ∀ s, decoAdjust lines s ≤ s := by
  intro s
  induction s with
  | zero => simp [decoAdjust]
  | succ s ih =>
    simp only [decoAdjust]
    split
    · omega
    · omega

lemma decoAdjust_lower (lines : List Line) :
    ∀ s j, j < s → isDecoratorLine (lineAt lines j) = false → j < decoAdjust lines s := by
  intro s
  induction s with
  | zero => omega
  | succ s ih =>
    intro j hj hdeco
    simp only [decoAdjust]
    split
    · rename_i hs
      rcases Nat.lt_succ_iff_lt_or_eq.mp hj with h | h
      · exact ih j h hdeco
      · rw [h] at hdeco; rw [hdeco] at hs; exact absurd hs (by simp)
    · omega

lemma decoAdjust_deco (lines : List Line) :
    ∀ s j, decoAdjust lines s ≤ j → j < s → isDecoratorLine (lineAt lines j) = true := by
  intro s
  induction s with
  | zero => omega
  | succ s ih =>
    intro j h1 h2
    by_cases hs : isDecoratorLine (lineAt lines s) = true
    · rcases Nat.lt_succ_iff_lt_or_eq.mp h2 with h | h
      · exact ih j (by simpa [decoAdjust, hs] using h1) h
      · rw [h]; exact hs
    · simp only [decoAdjust, if_neg hs] at h1
      omega

lemma decoAdjust_stop (lines : List Line) :
    ∀ s, decoAdjust lines s = 0 ∨ isDecoratorLine (lineAt lines (decoAdjust lines s - 1)) = false := by
  intro s
  induction s with
  | zero => left; rfl
  | succ s ih =>
    by_cases hs : isDecoratorLine (lineAt lines s) = true
    · simpa [decoAdjust, hs] using ih
    · right
      simp only [decoAdjust, if_neg hs, Nat.add_sub_cancel]
      exact Bool.not_eq_true _ ▸ hs

lemma adjustStart_le (lines : List Line) (isPython : Bool) (s : Nat) :
    adjustStart lines isPython s ≤ s := by
  unfold adjustStart
  split
  · exact decoAdjust_le lines s
  · exact Nat.le_refl s

lemma adjustStart_lower (lines : List Line) (isPython : Bool) {s j : Nat} (hj : j < s)
    (hdeco : isDecoratorLine (lineAt lines j) = false) : j < adjustStart lines isPython s := by
  unfold adjustStart
  split
  · exact decoAdjust_lower lines s j hj hdeco
  · exact hj

lemma mem_boundaryIndices {lines : List Line} {pat : Line → Bool} {i : Nat}
    (h : i ∈ boundaryIndices lines pat) : i < lines.length ∧ pat (lineAt lines i) = true := by
  simp only [boundaryIndices, List.mem_filter, List.mem_range] at h
  exact h

lemma boundaryIndices_chain (lines : List Line) (pat : Line → Bool) :
    List.Chain' (· < ·) (boundaryIndices lines pat) := by
  have hp : (boundaryIndices lines pat).Pairwise (· < ·) :=
    (List.pairwise_lt_range lines.length).sublist (List.filter_sublist _)
  exact hp.chain'

lemma boundaryIndices_eq_nil {lines : List Line} {pat : Line → Bool}
    (h : ∀ line ∈ lines, pat line = false) : boundaryIndices lines pat = [] := by
  refine List.filter_eq_nil_iff.mpr ?_
  intro i hi
  rw [List.mem_range] at hi
  have : lineAt lines i ∈ lines := by
    unfold lineAt
    rw [List.getD_eq_getElem lines [] hi]
    exact List.getElem_mem hi
  simp [h _ this]

lemma buildRanges_ends (lines : List Line) (isPython : Bool) (n : Nat) :
    ∀ l : List Nat, ∀ p ∈ buildRanges lines isPython n l, p.2 = n ∨ p.2 ∈ l := by
  intro l
  induction l with
  | nil => simp [buildRanges]
  | cons i rest ih =>
    intro p hp
    simp only [buildRanges, List.mem_cons] at hp
    rcases hp with hp | hp
    · rw [hp]
      cases rest with
      | nil => left; rfl
      | cons j t => right; simp
    · rcases ih p hp with h | h
      · left; exact h
      · right; exact List.mem_cons_of_mem _ h

lemma buildRanges_starts (lines : List Line) (isPython : Bool) (n : Nat) :
    ∀ l : List Nat, ∀ p ∈ buildRanges lines isPython n l,
      ∃ i ∈ l, p.1 = adjustStart lines isPython i := by
  intro l
  induction l with
  | nil => simp [buildRanges]
  | cons i rest ih =>
    intro p hp
    simp only [buildRanges, List.mem_cons] at hp
    rcases hp with hp | hp
    · exact ⟨i, List.mem_cons_self i rest, by rw [hp]⟩
    · obtain ⟨j, hj, hpj⟩ := ih p hp
      exact ⟨j, List.mem_cons_of_mem _ hj, hpj⟩

lemma buildRanges_cover (lines : List Line) (isPython : Bool) (n : Nat) :
    ∀ l : List Nat, ∀ x : Nat, l ≠ [] → adjustStart lines isPython (l.headD 0) ≤ x → x < n →
      ∃ p ∈ buildRanges lines isPython n l, p.1 ≤ x ∧ x < p.2 := by
  intro l
  induction l with
  | nil => intro x h; exact absurd rfl h
  | cons i rest ih =>
    intro x _ hhead hx
    cases rest with
    | nil =>
      refine ⟨(adjustStart lines isPython i, n), ?_, ?_, hx⟩
      · simp [buildRanges]
      · simpa using hhead
    | cons j t =>
      by_cases hxj : x < j
      · refine ⟨(adjustStart lines isPython i, j), ?_, ?_, hxj⟩
        · simp [buildRanges]
        · simpa using hhead
      · push_neg at hxj
        have hj : adjustStart lines isPython ((j :: t).headD 0) ≤ x :=
          le_trans (by simpa using adjustStart_le lines isPython j) hxj
        obtain ⟨p, hp, hp1, hp2⟩ := ih x (by simp) hj hx
        refine ⟨p, ?_, hp1, hp2⟩
        show p ∈ (adjustStart lines isPython i, j) :: buildRanges lines isPython n (j :: t)
        exact List.mem_cons_of_mem _ hp

lemma buildRanges_chain (lines : List Line) (isPython : Bool) (n : Nat) :
    ∀ l : List Nat, List.Chain' (· < ·) l →
      (∀ i ∈ l, isDecoratorLine (lineAt lines i) = false) →
      List.Chain' (fun p q : Nat × Nat => p.1 < q.1) (buildRanges lines isPython n l) := by
  intro l
  induction l with
  | nil => simp [buildRanges]
  | cons i rest ih =>
    intro hc hd
    cases rest with
    | nil => simp [buildRanges]
    | cons j t =>
      have hij : i < j := (List.chain'_cons.mp hc).1
      have hrest : List.Chain' (· < ·) (j :: t) := (List.chain'_cons.mp hc).2
      have hdi : isDecoratorLine (lineAt lines i) = false := hd i (List.mem_cons_self _ _)
      have hstep : adjustStart lines isPython i < adjustStart lines isPython j :=
        lt_of_le_of_lt (adjustStart_le lines isPython i) (adjustStart_lower lines isPython hij hdi)
      have hihc := ih hrest (fun k hk => hd k (List.mem_cons_of_mem _ hk))
      simp only [buildRanges] at hihc ⊢
      exact List.chain'_cons.mpr ⟨hstep, hihc⟩

lemma buildRanges_mem_start (lines : List Line) (isPython : Bool) (n : Nat) :
    ∀ (l : List Nat) (k : Nat), k < l.length →
      ∃ e, (adjustStart lines isPython (l.getD k 0), e) ∈ buildRanges lines isPython n l := by
  intro l
  induction l with
  | nil => intro k hk; simp at hk
  | cons i rest ih =>
    intro k hk
    cases k with
    | zero =>
      cases rest with
      | nil => exact ⟨n, by simp [buildRanges]⟩
      | cons j t => exact ⟨j, by simp [buildRanges]⟩
    | succ k =>
      have hk' : k < rest.length := by simpa using hk
      obtain ⟨e, he⟩ := ih k hk'
      refine ⟨e, ?_⟩
      simp only [buildRanges, List.mem_cons]
      right
      simpa using he

lemma heuristicBoundaries_of_nil {lines : List Line} {pat : Line → Bool} (isPython : Bool)
    (h : boundaryIndices lines pat = []) :
    heuristicBoundaries lines pat isPython = [(0, lines.length)] := by
  simp [heuristicBoundaries, h]

lemma heuristicBoundaries_of_cons {lines : List Line} {pat : Line → Bool} {isPython : Bool}
    {i : Nat} {rest : List Nat} (h : boundaryIndices lines pat = i :: rest) :
    heuristicBoundaries lines pat isPython =
      if 0 < adjustStart lines isPython i then
        (0, adjustStart lines isPython i) :: buildRanges lines isPython lines.length (i :: rest)
      else buildRanges lines isPython lines.length (i :: rest) := by
  simp only [heuristicBoundaries, h, List.isEmpty_cons, Bool.false_eq_true, if_false, buildRanges]

lemma heuristic_cover {lines : List Line} {pat : Line → Bool} (isPython : Bool) :
    ∀ x, x < lines.length →
      ∃ p ∈ heuristicBoundaries lines pat isPython, p.1 ≤ x ∧ x < p.2 := by
  intro x hx
  cases h : boundaryIndices lines pat with
  | nil =>
    rw [heuristicBoundaries_of_nil isPython h]
    exact ⟨(0, lines.length), by simp, by simp, hx⟩
  | cons i rest =>
    rw [heuristicBoundaries_of_cons h]
    by_cases hxs : x < adjustStart lines isPython i
    · rw [if_pos (by omega)]
      exact ⟨(0, adjustStart lines isPython i), by simp, by simp, hxs⟩
    · push_neg at hxs
      obtain ⟨p, hp, hp1, hp2⟩ :=
        buildRanges_cover lines isPython lines.length (i :: rest) x (by simp) (by simpa using hxs) hx
      refine ⟨p, ?_, hp1, hp2⟩
      split
      · exact List.mem_cons_of_mem _ hp
      · exact hp

lemma heuristic_end_le {lines : List Line} {pat : Line → Bool} (isPython : Bool) :
    ∀ p ∈ heuristicBoundaries lines pat isPython, p.2 ≤ lines.length := by
  intro p hp
  cases h : boundaryIndices lines pat with
  | nil =>
    rw [heuristicBoundaries_of_nil isPython h] at hp
    simp only [List.mem_singleton] at hp
    rw [hp]
  | cons i rest =>
    rw [heuristicBoundaries_of_cons h] at hp
    have hin : i < lines.length := by
      have : i ∈ boundaryIndices lines pat := by rw [h]; exact List.mem_cons_self _ _
      exact (mem_boundaryIndices this).1
    have hbs : p ∈ buildRanges lines isPython lines.length (i :: rest) → p.2 ≤ lines.length := by
      intro hmem
      rcases buildRanges_ends lines isPython lines.length (i :: rest) p hmem with he | he
      · omega
      · have : p.2 ∈ boundaryIndices lines pat := by rw [h]; exact he
        exact Nat.le_of_lt (mem_boundaryIndices this).1
    have hadj : adjustStart lines isPython i ≤ i := adjustStart_le lines isPython i
    split at hp
    · rcases List.mem_cons.mp hp with hpe | hpm
      · rw [hpe]
        exact le_trans hadj (Nat.le_of_lt hin)
      · exact hbs hpm
    · exact hbs hp

lemma heuristic_chain {lines : List Line} {pat : Line → Bool} (isPython : Bool)
    (hpat : ∀ line : Line, pat line = true → isDecoratorLine line = false) :
    List.Chain' (fun p q : Nat × Nat => p.1 < q.1) (heuristicBoundaries lines pat isPython) := by
  cases h : boundaryIndices lines pat with
  | nil => rw [heuristicBoundaries_of_nil isPython h]; simp
  | cons i rest =>
    rw [heuristicBoundaries_of_cons h]
    have hchainIdx : List.Chain' (· < ·) (i :: rest) := h ▸ boundaryIndices_chain lines pat
    have hdeco : ∀ j ∈ (i :: rest), isDecoratorLine (lineAt lines j) = false := by
      intro j hj
      have : j ∈ boundaryIndices lines pat := by rw [h]; exact hj
      exact hpat _ (mem_boundaryIndices this).2
    have hbs := buildRanges_chain lines isPython lines.length (i :: rest) hchainIdx hdeco
    split
    · rename_i hpos
      simp only [buildRanges] at hbs ⊢
      exact List.chain'_cons.mpr ⟨hpos, hbs⟩
    · exact hbs

lemma fallback_length (n : Nat) :
    (fallbackBoundaries n).length = (n + 199) / 200 := by
  simp [fallbackBoundaries, fallbackSize]

lemma fallback_get (n k : Nat) (hk : k < (fallbackBoundaries n).length) :
    (fallbackBoundaries n).get ⟨k, hk⟩ = (200 * k, min (200 * k + 200) n) := by
  simp [fallbackBoundaries, fallbackSize]

lemma fallback_end_le (n : Nat) : ∀ p ∈ fallbackBoundaries n, p.2 ≤ n := by
  intro p hp
  simp only [fallbackBoundaries, List.mem_map, List.mem_range] at hp
  obtain ⟨k, _, hk⟩ := hp
  rw [← hk]
  exact Nat.min_le_right _ n

lemma fallback_cover (n : Nat) : ∀ x, x < n → ∃ p ∈ fallbackBoundaries n, p.1 ≤ x ∧ x < p.2 := by
  intro x hx
  refine ⟨(fallbackSize * (x / fallbackSize), min (fallbackSize * (x / fallbackSize) + fallbackSize) n), ?_, ?_, ?_⟩
  · simp only [fallbackBoundaries, List.mem_map, List.mem_range]
    exact ⟨x / fallbackSize, by simp only [fallbackSize]; omega, rfl⟩
  · simp only [fallbackSize]; omega
  · simp only [fallbackSize]; omega

lemma fallback_chain (n : Nat) :
    List.Chain' (fun p q : Nat × Nat => p.1 < q.1) (fallbackBoundaries n) := by
  rw [List.chain'_iff_get]
  intro k hk
  have h1 : k < (fallbackBoundaries n).length := by omega
  have h2 : k + 1 < (fallbackBoundaries n).length := by omega
  rw [fallback_get n k h1, fallback_get n (k + 1) h2]
  simp only []
  omega

lemma boundaries_end_le (lines : List Line) (language : String) :
    ∀ p ∈ find_code_block_boundaries lines language, p.2 ≤ lines.length := by
  intro p hp
  unfold find_code_block_boundaries at hp
  split at hp
  · exact heuristic_end_le true p hp
  · split at hp
    · exact heuristic_end_le false p hp
    · exact fallback_end_le lines.length p hp

lemma boundaries_cover (lines : List Line) (language : String) :
    ∀ x, x < lines.length → ∃ p ∈ find_code_block_boundaries lines language, p.1 ≤ x ∧ x < p.2 := by
  intro x hx
  unfold find_code_block_boundaries
  split
  · exact heuristic_cover true x hx
  · split
    · exact heuristic_cover false x hx
    · exact fallback_cover lines.length x hx

lemma boundaries_chain (lines : List Line) (language : String) :
    List.Chain' (fun p q : Nat × Nat => p.1 < q.1) (find_code_block_boundaries lines language) := by
  unfold find_code_block_boundaries
  split
  · exact heuristic_chain true (fun line h => pyBoundaryStart_not_deco h)
  · split
    · exact heuristic_chain false (fun line h => jsBoundaryStart_not_deco h)
    · exact fallback_chain lines.length

lemma chunksGo_at_end {path filename language : String} {lines : List Line} {ml e : Nat}
    (fuel cur : Nat) (h : e ≤ cur) :
    chunksGo path filename language lines ml e fuel cur = some [] := by
  cases fuel with
  | zero => simp only [chunksGo]; rw [if_neg (by omega)]
  | succ fuel => simp only [chunksGo]; rw [if_neg (by omega)]

lemma chunksGo_mem {path filename language : String} {lines : List Line} {ml e : Nat} :
    ∀ (fuel cur : Nat) (out : List Chunk) (c : Chunk),
      chunksGo path filename language lines ml e fuel cur = some out → c ∈ out →
      ∃ a, cur ≤ a ∧ a < e ∧ c = chunkOfWindow path filename language lines a (min (a + ml) e) ∧
        (stripData c.content).isEmpty = false := by
  intro fuel
  induction fuel with
  | zero =>
    intro cur out c h hc
    simp only [chunksGo] at h
    split at h
    · exact absurd h (by simp)
    · rw [Option.some_inj] at h
      rw [← h] at hc
      simp at hc
  | succ fuel ih =>
    intro cur out c h hc
    simp only [chunksGo] at h
    split at h
    · rename_i hcur
      have hcurce : cur ≤ min (cur + ml) e := Nat.le_min.mpr ⟨Nat.le_add_right _ _, Nat.le_of_lt hcur⟩
      split at h
      · obtain ⟨a, h1, h2, h3, h4⟩ := ih _ _ _ h hc
        exact ⟨a, by omega, h2, h3, h4⟩
      · rename_i hne
        rcases Option.map_eq_some'.mp h with ⟨rest, hrest, hout⟩
        rw [← hout] at hc
        rcases List.mem_cons.mp hc with hceq | hcm
        · refine ⟨cur, Nat.le_refl _, hcur, hceq, ?_⟩
          rw [hceq]
          exact Bool.not_eq_true _ ▸ hne
        · obtain ⟨a, h1, h2, h3, h4⟩ := ih _ _ _ hrest hcm
          exact ⟨a, by omega, h2, h3, h4⟩
    · rw [Option.some_inj] at h
      rw [← h] at hc
      simp at hc

lemma chunksGo_isSome {path filename language : String} {lines : List Line} {ml e : Nat}
    (hml : 1 ≤ ml) :
    ∀ fuel cur, e - cur ≤ fuel → (chunksGo path filename language lines ml e fuel cur).isSome = true := by
  intro fuel
  induction fuel with
  | zero =>
    intro cur h
    simp only [chunksGo]
    rw [if_neg (by omega)]
    rfl
  | succ fuel ih =>
    intro cur h
    simp only [chunksGo]
    split
    · rename_i hcur
      have hce : e - min (cur + ml) e ≤ fuel := by omega
      split
      · exact ih _ hce
      · rcases Option.isSome_iff_exists.mp (ih _ hce) with ⟨v, hv⟩
        rw [hv]
        rfl
    · rfl

lemma chunksGo_chain {path filename language : String} {lines : List Line} {ml e : Nat} :
    ∀ (fuel cur : Nat) (out : List Chunk),
      chunksGo path filename language lines ml e fuel cur = some out →
      List.Chain' (fun a b : Chunk => a.line_end < b.line_start) out ∧
        ∀ c ∈ out, cur < c.line_start ∧ c.line_end ≤ e := by
  intro fuel
  induction fuel with
  | zero =>
    intro cur out h
    simp only [chunksGo] at h
    split at h
    · exact absurd h (by simp)
    · rw [Option.some_inj] at h
      rw [← h]
      exact ⟨List.chain'_nil, by simp⟩
  | succ fuel ih =>
    intro cur out h
    simp only [chunksGo] at h
    split at h
    · rename_i hcur
      have hcurce : cur ≤ min (cur + ml) e := Nat.le_min.mpr ⟨Nat.le_add_right _ _, Nat.le_of_lt hcur⟩
      split at h
      · obtain ⟨hchain, hbound⟩ := ih _ _ h
        refine ⟨hchain, fun c hc => ?_⟩
        obtain ⟨h1, h2⟩ := hbound c hc
        exact ⟨by omega, h2⟩
      · rcases Option.map_eq_some'.mp h with ⟨rest, hrest, hout⟩
        obtain ⟨hchain, hbound⟩ := ih _ _ hrest
        rw [← hout]
        constructor
        · refine List.chain'_cons'.mpr ⟨?_, hchain⟩
          intro b hb
          have hbm : b ∈ rest := List.mem_of_mem_head? hb
          have := (hbound b hbm).1
          simpa [chunkOfWindow] using this
        · intro c hc
          rcases List.mem_cons.mp hc with hceq | hcm
          · rw [hceq]
            refine ⟨by simp [chunkOfWindow], ?_⟩
            simp only [chunkOfWindow]
            exact Nat.min_le_right _ _
          · obtain ⟨h1, h2⟩ := hbound c hcm
            exact ⟨by omega, h2⟩
    · rw [Option.some_inj] at h
      rw [← h]
      exact ⟨List.chain'_nil, by simp⟩

lemma mem_of_mem_rstripData {s : List Char} {x : Char} (h : x ∈ rstripData s) : x ∈ s := by
  unfold rstripData at h
  rw [List.mem_reverse] at h
  exact List.mem_reverse.mp ((List.dropWhile_sublist _).mem h)

lemma stripData_eq_nil_of_all {s : List Char} (h : ∀ x ∈ s, pyIsSpace x = true) :
    stripData s = [] := by
  have hl : lstripData s = [] := by
    unfold lstripData
    exact List.dropWhile_eq_nil_iff.mpr h
  unfold stripData
  rw [hl]
  rfl

lemma stripData_rstrip_of_all {s : List Char} (h : ∀ x ∈ s, pyIsSpace x = true) :
    (stripData (rstripData s)).isEmpty = true := by
  rw [stripData_eq_nil_of_all (fun x hx => h x (mem_of_mem_rstripData hx))]
  rfl

lemma exists_nonspace_of_strip_ne {s : List Char} (h : (stripData s).isEmpty = false) :
    ∃ x ∈ s, pyIsSpace x = false := by
  by_contra hall
  push_neg at hall
  have : ∀ x ∈ s, pyIsSpace x = true := by
    intro x hx
    have := hall x hx
    revert this
    cases pyIsSpace x <;> simp
  rw [stripData_eq_nil_of_all this] at h
  simp at h

lemma mem_sliceJoin {lines : List Line} {a b : Nat} {x : Char} (h : x ∈ sliceJoin lines a b) :
    ∃ j, a ≤ j ∧ j < b ∧ j < lines.length ∧ x ∈ lineAt lines j := by
  unfold sliceJoin at h
  rcases List.mem_flatten.mp h with ⟨l, hl, hxl⟩
  rcases List.mem_iff_getElem.mp hl with ⟨k, hk, hkl⟩
  have hkba : k < b - a := by
    rw [List.length_take] at hk
    omega
  have hkd : k < (lines.drop a).length := by
    rw [List.length_take] at hk
    omega
  have hlineslen : a + k < lines.length := by
    rw [List.length_drop] at hkd
    omega
  have hdl : (lines.drop a)[k] = l := by
    rw [← hkl]
    exact (List.getElem_take ..).symm
  have hll : lines[a + k] = l := by
    rw [← hdl]
    exact (List.getElem_drop ..).symm
  refine ⟨a + k, by omega, by omega, hlineslen, ?_⟩
  unfold lineAt
  rw [List.getD_eq_getElem lines [] hlineslen, hll]
  exact hxl

lemma sliceJoin_eq_nil {lines : List Line} {a b : Nat} (h : b ≤ a) : sliceJoin lines a b = [] := by
  unfold sliceJoin
  have : b - a = 0 := by omega
  rw [this]
  simp

lemma window_pos {lines : List Line} {a b : Nat}
    (h : (stripData (rstripData (sliceJoin lines a b))).isEmpty = false) : a < b := by
  by_contra hba
  push_neg at hba
  rw [sliceJoin_eq_nil hba] at h
  simp [rstripData, stripData, lstripData] at h

lemma chunksGo_all_blank {path filename language : String} {lines : List Line} {ml e s0 : Nat}
    (hml : 1 ≤ ml)
    (hblank : ∀ j, s0 ≤ j → j < e → ∀ x ∈ lineAt lines j, pyIsSpace x = true) :
    ∀ fuel cur, s0 ≤ cur → e - cur ≤ fuel →
      chunksGo path filename language lines ml e fuel cur = some [] := by
  intro fuel
  induction fuel with
  | zero =>
    intro cur hs hf
    simp only [chunksGo]
    rw [if_neg (by omega)]
  | succ fuel ih =>
    intro cur hs hf
    simp only [chunksGo]
    split
    · rename_i hcur
      have hws : ∀ x ∈ sliceJoin lines cur (min (cur + ml) e), pyIsSpace x = true := by
        intro x hx
        obtain ⟨j, hj1, hj2, _, hj4⟩ := mem_sliceJoin hx
        exact hblank j (by omega) (by omega) x hj4
      rw [if_pos (by simpa [chunkOfWindow] using stripData_rstrip_of_all hws)]
      exact ih (min (cur + ml) e) (by omega) (by omega)
    · rfl

lemma mem_chunksOfBoundaries {path filename language : String} {lines : List Line} {ml : Nat} :
    ∀ (bl : List (Nat × Nat)) (docs : List Chunk) (c : Chunk),
      chunksOfBoundaries path filename language lines ml bl = some docs → c ∈ docs →
      ∃ s e out, (s, e) ∈ bl ∧
        chunksGo path filename language lines ml e (e - s) s = some out ∧ c ∈ out := by
  intro bl
  induction bl with
  | nil =>
    intro docs c h hc
    simp only [chunksOfBoundaries, Option.some_inj] at h
    rw [← h] at hc
    simp at hc
  | cons p rest ih =>
    intro docs c h hc
    obtain ⟨s, e⟩ := p
    simp only [chunksOfBoundaries] at h
    cases hgo : chunksGo path filename language lines ml e (e - s) s with
    | none => rw [hgo] at h; exact absurd h (by simp)
    | some out =>
      rw [hgo] at h
      rcases Option.map_eq_some'.mp h with ⟨more, hmore, hdocs⟩
      rw [← hdocs] at hc
      rcases List.mem_append.mp hc with hcm | hcm
      · exact ⟨s, e, out, List.mem_cons_self _ _, hgo, hcm⟩
      · obtain ⟨s', e', out', hmem, hgo', hcm'⟩ := ih more c hmore hcm
        exact ⟨s', e', out', List.mem_cons_of_mem _ hmem, hgo', hcm'⟩

lemma chunksOfBoundaries_isSome {path filename language : String} {lines : List Line} {ml : Nat}
    (hml : 1 ≤ ml) :
    ∀ bl : List (Nat × Nat),
      (chunksOfBoundaries path filename language lines ml bl).isSome = true := by
  intro bl
  induction bl with
  | nil => rfl
  | cons p rest ih =>
    obtain ⟨s, e⟩ := p
    simp only [chunksOfBoundaries]
    rcases Option.isSome_iff_exists.mp
        (chunksGo_isSome hml (e - s) s (Nat.le_refl _)) with ⟨v, hv⟩
    rw [hv]
    rcases Option.isSome_iff_exists.mp ih with ⟨w, hw⟩
    rw [hw]
    rfl

lemma mem_create_documents {path filename language : String} {lines : List Line} {ml : Nat}
    {docs : List Chunk} {c : Chunk}
    (h : create_documents_from_lines path filename language lines ml = some docs) (hc : c ∈ docs) :
    ∃ s e out, (s, e) ∈ find_code_block_boundaries lines language ∧
      chunksGo path filename language lines ml e (e - s) s = some out ∧ c ∈ out := by
  unfold create_documents_from_lines at h
  exact mem_chunksOfBoundaries _ docs c h hc

lemma mem_create_shape {path filename language : String} {lines : List Line} {ml : Nat}
    {docs : List Chunk} {c : Chunk}
    (h : create_documents_from_lines path filename language lines ml = some docs) (hc : c ∈ docs) :
    ∃ a e, e ≤ lines.length ∧
      c = chunkOfWindow path filename language lines a (min (a + ml) e) ∧
      (stripData c.content).isEmpty = false := by
  obtain ⟨s, e, out, hmem, hgo, hcm⟩ := mem_create_documents h hc
  obtain ⟨a, _, _, hcw, hne⟩ := chunksGo_mem _ _ _ _ hgo hcm
  exact ⟨a, e, boundaries_end_le lines language _ hmem, hcw, hne⟩

/-- C1 counterexample: for the Python file `def f(): / pass / @deco / def g(): / pass`,
`find_code_block_boundaries` returns the ranges `[(0, 3), (2, 5)]`, whose two members
both contain line 2 — the ranges are not pairwise non-overlapping as the claim states
(the decorator walk-back of the second range crosses the end of the first). -/
theorem boundary_overlap_cex :
    find_code_block_boundaries overlapLines "python" = [(0, 3), (2, 5)] ∧
    (0, 3) ∈ find_code_block_boundaries overlapLines "python" ∧
    (2, 5) ∈ find_code_block_boundaries overlapLines "python" ∧
    ((0, 3) : Nat × Nat) ≠ (2, 5) ∧
    ((0 : Nat) ≤ 2 ∧ 2 < 3) ∧ ((2 : Nat) ≤ 2 ∧ 2 < 5) := by
  decide

/-- C1 (amended): for every list of lines and every language tag, the ranges returned
by `find_code_block_boundaries` are produced in strictly ascending order of start
index, end within the file, and collectively cover `[0, len(lines))` with no gaps;
pairwise non-overlap, however, can fail when a decorator run immediately precedes a
detected definition other than the first (see the counterexample). -/
theorem boundary_ranges_cover_ascending (lines : List Line) (language : String) :
    List.Chain' (fun p q : Nat × Nat => p.1 < q.1) (find_code_block_boundaries lines language) ∧
    (∀ p ∈ find_code_block_boundaries lines language, p.2 ≤ lines.length) ∧
    (∀ x, x < lines.length → ∃ p ∈ find_code_block_boundaries lines language, p.1 ≤ x ∧ x < p.2) :=
  ⟨boundaries_chain lines language, boundaries_end_le lines language, boundaries_cover lines language⟩

/-- C1 witness: the coverage part of `boundary_ranges_cover_ascending` instantiated
at the concrete file `overlapLines` and line index 2. -/
theorem boundary_ranges_cover_ascending_witness :
    2 < overlapLines.length ∧
    ∃ p ∈ find_code_block_boundaries overlapLines "python", p.1 ≤ 2 ∧ 2 < p.2 :=
  ⟨by decide, (boundary_ranges_cover_ascending overlapLines "python").2.2 2 (by decide)⟩

/-- C2: for the Python language, the `k`-th detected `def `/`class ` start line is a
matching line of the file, and the boundary emitted for it starts at
`decoAdjust lines i`: at most `i`, every line strictly between the adjusted start and
`i` is a decorator line, and the walk stops at the first non-decorator line above
(either the adjusted start is 0 or the line just above it is not a decorator). -/
theorem python_decorator_attachment (lines : List Line) (k : Nat)
    (hk : k < (pyIndices lines).length) :
    ((pyIndices lines).getD k 0 < lines.length ∧
      pyBoundaryStart (lineAt lines ((pyIndices lines).getD k 0)) = true) ∧
    (∃ e, (decoAdjust lines ((pyIndices lines).getD k 0), e) ∈
      find_code_block_boundaries lines "python") ∧
    decoAdjust lines ((pyIndices lines).getD k 0) ≤ (pyIndices lines).getD k 0 ∧
    (∀ j, decoAdjust lines ((pyIndices lines).getD k 0) ≤ j →
      j < (pyIndices lines).getD k 0 → isDecoratorLine (lineAt lines j) = true) ∧
    (decoAdjust lines ((pyIndices lines).getD k 0) = 0 ∨
      isDecoratorLine (lineAt lines (decoAdjust lines ((pyIndices lines).getD k 0) - 1)) = false) := by
  have hmem : (pyIndices lines).getD k 0 ∈ boundaryIndices lines pyBoundaryStart := by
    unfold pyIndices at hk ⊢
    rw [List.getD_eq_getElem _ 0 hk]
    exact List.getElem_mem hk
  refine ⟨mem_boundaryIndices hmem, ?_, decoAdjust_le lines _,
    fun j => decoAdjust_deco lines _ j, decoAdjust_stop lines _⟩
  have hfind : find_code_block_boundaries lines "python" =
      heuristicBoundaries lines pyBoundaryStart true := by
    unfold find_code_block_boundaries
    rw [if_pos rfl]
  cases h : boundaryIndices lines pyBoundaryStart with
  | nil =>
    unfold pyIndices at hk
    rw [h] at hk
    simp at hk
  | cons i0 rest =>
    have hkl : k < (i0 :: rest).length := by
      unfold pyIndices at hk
      rw [h] at hk
      exact hk
    obtain ⟨e, he⟩ := buildRanges_mem_start lines true lines.length (i0 :: rest) k hkl
    have hgetD : (pyIndices lines).getD k 0 = (i0 :: rest).getD k 0 := by
      unfold pyIndices
      rw [h]
    have hadj : adjustStart lines true ((i0 :: rest).getD k 0) =
        decoAdjust lines ((i0 :: rest).getD k 0) := by
      unfold adjustStart
      rw [if_pos rfl]
    refine ⟨e, ?_⟩
    rw [hfind, heuristicBoundaries_of_cons h, hgetD, ← hadj]
    split
    · exact List.mem_cons_of_mem _ he
    · exact he

/-- C2 witness: `python_decorator_attachment` at the spec's decorator example
(`@deco / def f(): / pass`, detected index 1, adjusted start 0): the only boundary is
`[(0, 3)]` and the emitted chunk starts at the decorator line (1-based line 1),
not at the `def` line. -/
theorem python_decorator_attachment_witness :
    0 < (pyIndices decoLines).length ∧
    (((pyIndices decoLines).getD 0 0 < decoLines.length ∧
      pyBoundaryStart (lineAt decoLines ((pyIndices decoLines).getD 0 0)) = true) ∧
    (∃ e, (decoAdjust decoLines ((pyIndices decoLines).getD 0 0), e) ∈
      find_code_block_boundaries decoLines "python") ∧
    decoAdjust decoLines ((pyIndices decoLines).getD 0 0) ≤ (pyIndices decoLines).getD 0 0 ∧
    (∀ j, decoAdjust decoLines ((pyIndices decoLines).getD 0 0) ≤ j →
      j < (pyIndices decoLines).getD 0 0 → isDecoratorLine (lineAt decoLines j) = true) ∧
    (decoAdjust decoLines ((pyIndices decoLines).getD 0 0) = 0 ∨
      isDecoratorLine (lineAt decoLines (decoAdjust decoLines ((pyIndices decoLines).getD 0 0) - 1)) = false)) ∧
    find_code_block_boundaries decoLines "python" = [(0, 3)] ∧
    (create_documents_from_lines "m.py" "m.py" "python" decoLines 400).map
        (fun l => l.map Chunk.line_start) = some [1] :=
  ⟨by decide, python_decorator_attachment decoLines 0 (by decide), by decide, by decide⟩

/-- C3 counterexample: a one-line `ini` file produces a chunk whose `chunk_type` is
`"code"`, not `"prose"` — `"ini"` is absent from the tuple
`("markdown", "text", "json", "toml", "yaml")` the code tests against, so the claim's
enumerated prose set (which includes ini) does not match the code. -/
theorem ini_chunk_type_cex :
    (create_documents_from_lines "a.cfg" "a.cfg" "ini" iniLines 400).map
        (fun l => l.map Chunk.chunk_type) = some ["code"] ∧
    ("code" : String) ≠ "prose" := by
  constructor
  · decide
  · decide

/-- C3 (amended): every emitted chunk's `chunk_type` is `"prose"` exactly when the
language tag is one of `markdown`, `text`, `json`, `toml`, `yaml` — and `"code"`
otherwise, so `ini` files (like `python`, `javascript`, `typescript` ones) get
`"code"`. -/
theorem chunk_type_prose_iff (path filename language : String) (lines : List Line)
    (ml : Nat) (docs : List Chunk) (c : Chunk)
    (h : create_documents_from_lines path filename language lines ml = some docs)
    (hc : c ∈ docs) :
    (c.chunk_type = "prose" ↔
      (language = "markdown" ∨ language = "text" ∨ language = "json" ∨
        language = "toml" ∨ language = "yaml")) ∧
    (c.chunk_type = "prose" ∨ c.chunk_type = "code") := by
  obtain ⟨a, e, _, hcw, _⟩ := mem_create_shape h hc
  have hct : c.chunk_type = chunkTypeOf language := by rw [hcw]; rfl
  rw [hct]
  unfold chunkTypeOf
  split
  · rename_i hcond
    simp only [Bool.or_eq_true, decide_eq_true_eq] at hcond
    exact ⟨⟨fun _ => by tauto, fun _ => rfl⟩, Or.inl rfl⟩
  · rename_i hcond
    simp only [Bool.or_eq_true, decide_eq_true_eq] at hcond
    refine ⟨⟨fun hpr => absurd hpr (by decide), fun hor => absurd ?_ hcond⟩, Or.inr rfl⟩
    tauto

/-- C3 witness: `chunk_type_prose_iff` at the concrete `ini` file — its chunk's
`chunk_type` is not `"prose"` even though the original claim put `ini` in the prose
set. -/
theorem chunk_type_prose_iff_witness :
    create_documents_from_lines "a.cfg" "a.cfg" "ini" iniLines 400 = some iniDocs ∧
    iniDocs.getD 0 default ∈ iniDocs ∧
    ((iniDocs.getD 0 default).chunk_type = "prose" ↔
      (("ini" : String) = "markdown" ∨ ("ini" : String) = "text" ∨ ("ini" : String) = "json" ∨
        ("ini" : String) = "toml" ∨ ("ini" : String) = "yaml")) ∧
    ((iniDocs.getD 0 default).chunk_type = "prose" ∨ (iniDocs.getD 0 default).chunk_type = "code") := by
  refine ⟨by decide, by decide, ?_, ?_⟩
  · exact (chunk_type_prose_iff "a.cfg" "a.cfg" "ini" iniLines 400 iniDocs
      (iniDocs.getD 0 default) (by decide) (by decide)).1
  · exact (chunk_type_prose_iff "a.cfg" "a.cfg" "ini" iniLines 400 iniDocs
      (iniDocs.getD 0 default) (by decide) (by decide)).2

/-- C4: for a language outside the two heuristic families, the boundaries are the
consecutive fixed windows `(200k, min(200k + 200, n))` in ascending order: there are
`⌈n / 200⌉` of them, each window ends where the next begins, every window except
possibly the last spans exactly 200 lines, none spans more, and together they cover
`[0, n)` — regardless of the lines' content. -/
theorem fallback_fixed_windows (lines : List Line) (language : String)
    (h1 : language ≠ "python") (h2 : language ≠ "javascript") (h3 : language ≠ "typescript") :
    (find_code_block_boundaries lines language).length = (lines.length + 199) / 200 ∧
    (∀ k (hk : k < (find_code_block_boundaries lines language).length),
      (find_code_block_boundaries lines language).get ⟨k, hk⟩ =
        (200 * k, min (200 * k + 200) lines.length)) ∧
    List.Chain' (fun p q : Nat × Nat => p.2 = q.1) (find_code_block_boundaries lines language) ∧
    (∀ k (hk : k < (find_code_block_boundaries lines language).length),
      k + 1 < (find_code_block_boundaries lines language).length →
      ((find_code_block_boundaries lines language).get ⟨k, hk⟩).2 -
        ((find_code_block_boundaries lines language).get ⟨k, hk⟩).1 = 200) ∧
    (∀ k (hk : k < (find_code_block_boundaries lines language).length),
      ((find_code_block_boundaries lines language).get ⟨k, hk⟩).2 -
        ((find_code_block_boundaries lines language).get ⟨k, hk⟩).1 ≤ 200) ∧
    (∀ x, x < lines.length →
      ∃ p ∈ find_code_block_boundaries lines language, p.1 ≤ x ∧ x < p.2) := by
  have hB : find_code_block_boundaries lines language = fallbackBoundaries lines.length := by
    unfold find_code_block_boundaries
    rw [if_neg (by simpa using h1), if_neg (by simp [h2, h3])]
  rw [hB] at *
  have hlen : (fallbackBoundaries lines.length).length = (lines.length + 199) / 200 :=
    fallback_length lines.length
  refine ⟨fallback_length lines.length, fallback_get lines.length, ?_,
    ?_, ?_, fallback_cover lines.length⟩
  · rw [List.chain'_iff_get]
    intro k hk
    have h1 : k < (fallbackBoundaries lines.length).length := by omega
    have h2 : k + 1 < (fallbackBoundaries lines.length).length := by omega
    rw [fallback_get lines.length k h1, fallback_get lines.length (k + 1) h2]
    show min (200 * k + 200) lines.length = 200 * (k + 1)
    omega
  · intro k hk hk1
    rw [fallback_get lines.length k hk]
    show min (200 * k + 200) lines.length - 200 * k = 200
    omega
  · intro k hk
    rw [fallback_get lines.length k hk]
    show min (200 * k + 200) lines.length - 200 * k ≤ 200
    omega

/-- C4 witness: `fallback_fixed_windows` at the one-line `ini` file: a single window
`(0, min 200 1)`. -/
theorem fallback_fixed_windows_witness :
    (("ini" : String) ≠ "python" ∧ ("ini" : String) ≠ "javascript" ∧ ("ini" : String) ≠ "typescript") ∧
    (find_code_block_boundaries iniLines "ini").length = (iniLines.length + 199) / 200 ∧
    (∀ x, x < iniLines.length →
      ∃ p ∈ find_code_block_boundaries iniLines "ini", p.1 ≤ x ∧ x < p.2) :=
  ⟨⟨by decide, by decide, by decide⟩,
    (fallback_fixed_windows iniLines "ini" (by decide) (by decide) (by decide)).1,
    (fallback_fixed_windows iniLines "ini" (by decide) (by decide) (by decide)).2.2.2.2.2⟩

/-- C5 counterexample: a Python file consisting of one blank line has no matching
boundary-start line, and `find_code_block_boundaries` duly returns the single
whole-file boundary `[(0, 1)]` — but chunk production yields zero chunks (the blank
window is dropped), not exactly one chunk spanning the whole file as the claim
states. -/
theorem no_defs_blank_file_cex :
    (blankLines.all fun line => !pyBoundaryStart line) = true ∧
    find_code_block_boundaries blankLines "python" = [(0, 1)] ∧
    create_documents_from_lines "a.py" "a.py" "python" blankLines 400 = some [] := by
  decide

/-- C5 (amended): for a heuristic-family language with no line matching the
boundary-start pattern, `find_code_block_boundaries` returns exactly one boundary
spanning the whole file (not the 200-line fallback); chunk production then yields
exactly one chunk spanning the whole file provided the file fits in one window
(`len(lines) ≤ chunk_max_lines`) and its content is not whitespace-only — otherwise
the single boundary is window-split and blank windows are dropped. -/
theorem no_defs_single_boundary_chunk (path filename language : String) (lines : List Line)
    (ml : Nat)
    (hlang : language = "python" ∨ language = "javascript" ∨ language = "typescript")
    (hpat : ∀ line ∈ lines,
      (if language = "python" then pyBoundaryStart line else jsBoundaryStart line) = false) :
    find_code_block_boundaries lines language = [(0, lines.length)] ∧
    (lines.length ≤ ml →
      (stripData (rstripData (sliceJoin lines 0 lines.length))).isEmpty = false →
      create_documents_from_lines path filename language lines ml =
        some [chunkOfWindow path filename language lines 0 lines.length] ∧
      (chunkOfWindow path filename language lines 0 lines.length).line_start = 1 ∧
      (chunkOfWindow path filename language lines 0 lines.length).line_end = lines.length) := by
  have hbd : find_code_block_boundaries lines language = [(0, lines.length)] := by
    rcases hlang with hl | hl | hl
    · subst hl
      unfold find_code_block_boundaries
      rw [if_pos rfl]
      exact heuristicBoundaries_of_nil true (boundaryIndices_eq_nil (by simpa using hpat))
    · subst hl
      unfold find_code_block_boundaries
      rw [if_neg (by decide), if_pos (by decide)]
      exact heuristicBoundaries_of_nil false (boundaryIndices_eq_nil (by simpa using hpat))
    · subst hl
      unfold find_code_block_boundaries
      rw [if_neg (by decide), if_pos (by decide)]
      exact heuristicBoundaries_of_nil false (boundaryIndices_eq_nil (by simpa using hpat))
  refine ⟨hbd, ?_⟩
  intro hml hne
  have h0n : 0 < lines.length := window_pos hne
  have hgo : chunksGo path filename language lines ml lines.length lines.length 0 =
      some [chunkOfWindow path filename language lines 0 lines.length] := by
    obtain ⟨n', hn'⟩ : ∃ n', lines.length = n' + 1 := ⟨lines.length - 1, by omega⟩
    rw [hn'] at hne hml ⊢
    simp only [chunksGo]
    rw [if_pos (by omega)]
    rw [show min (0 + ml) (n' + 1) = n' + 1 from by omega]
    have hg : (stripData (chunkOfWindow path filename language lines 0 (n' + 1)).content).isEmpty = false := by
      simpa [chunkOfWindow] using hne
    rw [if_neg (by rw [hg]; simp)]
    rw [chunksGo_at_end n' (n' + 1) (Nat.le_refl _)]
    rfl
  refine ⟨?_, rfl, rfl⟩
  unfold create_documents_from_lines
  rw [hbd]
  simp only [chunksOfBoundaries, Nat.sub_zero]
  rw [hgo]
  simp [chunksOfBoundaries]

/-- C5 witness: `no_defs_single_boundary_chunk` at the two-line Python file
`x = 1 / y = 2`: one boundary `[(0, 2)]` and exactly one chunk spanning lines 1-2. -/
theorem no_defs_single_boundary_chunk_witness :
    find_code_block_boundaries noDefLines "python" = [(0, noDefLines.length)] ∧
    create_documents_from_lines "a.py" "a.py" "python" noDefLines 400 =
      some [chunkOfWindow "a.py" "a.py" "python" noDefLines 0 noDefLines.length] ∧
    (chunkOfWindow "a.py" "a.py" "python" noDefLines 0 noDefLines.length).line_start = 1 ∧
    (chunkOfWindow "a.py" "a.py" "python" noDefLines 0 noDefLines.length).line_end = noDefLines.length := by
  have h := no_defs_single_boundary_chunk "a.py" "a.py" "python" noDefLines 400
    (by decide) (by decide)
  obtain ⟨hb, himp⟩ := h
  obtain ⟨hc, hs, he⟩ := himp (by decide) (by decide)
  exact ⟨hb, hc, hs, he⟩

/-- C6: every chunk emitted by `create_documents_from_lines` spans at most
`chunk_max_lines` source lines (`line_end - line_start + 1 ≤ ml`, stated without
truncated subtraction as `line_end + 1 ≤ line_start + ml`), and within any one
boundary range the windows are taken left-to-right without overlap: the chunks of
one range are strictly ordered (`line_end < next line_start`), start after the
range's cursor, and end inside the range. -/
theorem chunk_size_bound (path filename language : String) (lines : List Line) (ml : Nat) :
    (∀ docs c, create_documents_from_lines path filename language lines ml = some docs →
      c ∈ docs → c.line_end + 1 ≤ c.line_start + ml) ∧
    (∀ e fuel cur out, chunksGo path filename language lines ml e fuel cur = some out →
      List.Chain' (fun a b : Chunk => a.line_end < b.line_start) out ∧
      ∀ d ∈ out, cur < d.line_start ∧ d.line_end ≤ e) := by
  constructor
  · intro docs c h hc
    obtain ⟨a, e, _, hcw, _⟩ := mem_create_shape h hc
    rw [hcw]
    show min (a + ml) e + 1 ≤ (a + 1) + ml
    omega
  · intro e fuel cur out h
    exact chunksGo_chain fuel cur out h

/-- C6 witness: `chunk_size_bound` at the first chunk of the ten-line Python file. -/
theorem chunk_size_bound_witness :
    create_documents_from_lines "f.py" "f.py" "python" tenLines 400 = some tenDocs ∧
    tenDocs.getD 0 default ∈ tenDocs ∧
    (tenDocs.getD 0 default).line_end + 1 ≤ (tenDocs.getD 0 default).line_start + 400 :=
  ⟨by decide, by decide,
    (chunk_size_bound "f.py" "f.py" "python" tenLines 400).1 tenDocs (tenDocs.getD 0 default)
      (by decide) (by decide)⟩

/-- C7: every emitted chunk comes from a 0-based half-open window `[cur, ce)`: its
metadata records `line_start = cur + 1` and `line_end = ce` (1-based inclusive), and
its content is exactly the right-stripped join of the lines of that window. -/
theorem chunk_line_metadata (path filename language : String) (lines : List Line) (ml : Nat)
    (docs : List Chunk) (c : Chunk)
    (h : create_documents_from_lines path filename language lines ml = some docs)
    (hc : c ∈ docs) :
    ∃ cur ce, c.line_start = cur + 1 ∧ c.line_end = ce ∧
      c.content = rstripData (sliceJoin lines cur ce) := by
  obtain ⟨a, e, _, hcw, _⟩ := mem_create_shape h hc
  exact ⟨a, min (a + ml) e, by rw [hcw]; rfl, by rw [hcw]; rfl, by rw [hcw]; rfl⟩

/-- C7 witness: `chunk_line_metadata` at the ten-line Python file whose second
boundary is the window `[2, 5)`: the corresponding chunk reports `line_start = 3`
and `line_end = 5`. -/
theorem chunk_line_metadata_witness :
    create_documents_from_lines "f.py" "f.py" "python" tenLines 400 = some tenDocs ∧
    tenDocs.getD 1 default ∈ tenDocs ∧
    (∃ cur ce, (tenDocs.getD 1 default).line_start = cur + 1 ∧
      (tenDocs.getD 1 default).line_end = ce ∧
      (tenDocs.getD 1 default).content = rstripData (sliceJoin tenLines cur ce)) ∧
    (2, 5) ∈ find_code_block_boundaries tenLines "python" ∧
    (tenDocs.getD 1 default).line_start = 3 ∧ (tenDocs.getD 1 default).line_end = 5 :=
  ⟨by decide, by decide,
    chunk_line_metadata "f.py" "f.py" "python" tenLines 400 tenDocs (tenDocs.getD 1 default)
      (by decide) (by decide),
    by decide, by decide, by decide⟩

/-- C8: every emitted chunk's content is non-empty and not whitespace-only, and a
region consisting only of blank lines produces zero chunks while the window cursor
still advances past it (the loop finishes with an empty output). -/
theorem chunk_content_nonblank (path filename language : String) (lines : List Line) (ml : Nat) :
    (∀ docs c, create_documents_from_lines path filename language lines ml = some docs →
      c ∈ docs → c.content ≠ [] ∧ ∃ x ∈ c.content, pyIsSpace x = false) ∧
    (∀ s0 e fuel cur, 1 ≤ ml →
      (∀ j, s0 ≤ j → j < e → ∀ x ∈ lineAt lines j, pyIsSpace x = true) →
      s0 ≤ cur → e - cur ≤ fuel →
      chunksGo path filename language lines ml e fuel cur = some []) := by
  constructor
  · intro docs c h hc
    obtain ⟨a, e, _, hcw, hne⟩ := mem_create_shape h hc
    constructor
    · intro hnil
      rw [hnil] at hne
      simp [stripData, lstripData, rstripData] at hne
    · exact exists_nonspace_of_strip_ne hne
  · intro s0 e fuel cur hml hblank hs hf
    exact chunksGo_all_blank hml hblank fuel cur hs hf

/-- C8 witness: `chunk_content_nonblank` at the first chunk of the ten-line file
(non-empty, has a non-whitespace character), and at the blank one-line Python file
(its whole-file range yields zero chunks). -/
theorem chunk_content_nonblank_witness :
    ((tenDocs.getD 0 default).content ≠ [] ∧
      ∃ x ∈ (tenDocs.getD 0 default).content, pyIsSpace x = false) ∧
    chunksGo "b.py" "b.py" "python" blankLines 400 1 1 0 = some [] := by
  constructor
  · exact (chunk_content_nonblank "f.py" "f.py" "python" tenLines 400).1 tenDocs
      (tenDocs.getD 0 default) (by decide) (by decide)
  · exact (chunk_content_nonblank "b.py" "b.py" "python" blankLines 400).2 0 1 1 0 (by decide)
      (fun j h1 h2 => by
        have hj : j = 0 := by omega
        subst hj
        decide) (by decide) (by decide)

/-- C9: for every file, every language and every `chunk_max_lines ≥ 1`, the pure
chunk-production stage (boundary detection plus window assembly) terminates and
returns a list of chunks — the fuel-indexed loop never runs out of fuel, so the
result is always `some`. -/
theorem chunk_production_terminates (path filename language : String) (lines : List Line)
    (ml : Nat) (hml : 1 ≤ ml) :
    ∃ docs, create_documents_from_lines path filename language lines ml = some docs := by
  unfold create_documents_from_lines
  exact Option.isSome_iff_exists.mp (chunksOfBoundaries_isSome hml _)

/-- C9 witness: `chunk_production_terminates` at the ten-line Python file with the
default `chunk_max_lines = 400`. -/
theorem chunk_production_terminates_witness :
    1 ≤ 400 ∧
    ∃ docs, create_documents_from_lines "f.py" "f.py" "python" tenLines 400 = some docs :=
  ⟨by decide, chunk_production_terminates "f.py" "f.py" "python" tenLines 400 (by decide)⟩

/-- C10: every emitted chunk's cited line range lies inside the file:
`1 ≤ line_start ≤ line_end ≤ len(lines)`, so a citation `filename[line_start-line_end]`
never refers to lines before the first or past the last line of the file. -/
theorem chunk_line_range_in_file (path filename language : String) (lines : List Line)
    (ml : Nat) (docs : List Chunk) (c : Chunk) (hml : 1 ≤ ml)
    (h : create_documents_from_lines path filename language lines ml = some docs)
    (hc : c ∈ docs) :
    1 ≤ c.line_start ∧ c.line_start ≤ c.line_end ∧ c.line_end ≤ lines.length := by
  obtain ⟨a, e, he, hcw, hne⟩ := mem_create_shape h hc
  have hab : a < min (a + ml) e := by
    apply window_pos
    have hcc : c.content = rstripData (sliceJoin lines a (min (a + ml) e)) := by rw [hcw]; rfl
    rw [← hcc]
    exact hne
  rw [hcw]
  refine ⟨?_, ?_, ?_⟩
  · show 1 ≤ a + 1
    omega
  · show a + 1 ≤ min (a + ml) e
    omega
  · show min (a + ml) e ≤ lines.length
    omega

/-- C10 witness: `chunk_line_range_in_file` at the third chunk of the ten-line
Python file. -/
theorem chunk_line_range_in_file_witness :
    1 ≤ 400 ∧
    create_documents_from_lines "f.py" "f.py" "python" tenLines 400 = some tenDocs ∧
    tenDocs.getD 2 default ∈ tenDocs ∧
    (1 ≤ (tenDocs.getD 2 default).line_start ∧
      (tenDocs.getD 2 default).line_start ≤ (tenDocs.getD 2 default).line_end ∧
      (tenDocs.getD 2 default).line_end ≤ tenLines.length) :=
  ⟨by decide, by decide, by decide,
    chunk_line_range_in_file "f.py" "f.py" "python" tenLines 400 tenDocs (tenDocs.getD 2 default)
      (by decide) (by decide) (by decide)⟩
